import Mathlib

/-!
Shallow embedding of the `hidden-r1cs` lattice-commitment library.

Field elements of a `Z_q` scalar field are embedded as natural-number
representatives in `[0, q)`; every arithmetic operation reduces modulo the
cardinality `q`, mirroring the `% F` reductions in the scalar field
implementations (`src/fields/binary.rs` and the generic `Element`
default methods in `src/lib.rs`).  Vectors are `List ℕ`, matrices carry
their `width`/`height` fields plus a row list exactly as `Matrix<E>` does.
A Rust `assert!`/`panic!` is modelled by an `Option` result (`none` is the
fatal abort); an `anyhow::bail!` error is an `Except.error`.
-/

namespace HiddenR1CS

/-- Field addition on representatives: `(a + b) % q`
(`AddAssign for BinaryScalar`, `src/fields/binary.rs`). -/
def addq (q a b : ℕ) : ℕ := (a + b) % q

/-- Field subtraction on representatives: `((a + q) - b) % q`.
The source subtracts the canonical representative of `b`, so we reduce `b`
first; for `b < q` this is exactly `((a + q) - b) % q`
(`SubAssign for BinaryScalar`, `src/fields/binary.rs`). -/
def subq (q a b : ℕ) : ℕ := (a + (q - b % q)) % q

/-- Field multiplication on representatives: `(a * b) % q`
(`MulAssign for BinaryScalar`, `src/fields/binary.rs`). -/
def mulq (q a b : ℕ) : ℕ := (a * b) % q

/-- `Element::zero()` is `from(0)`, which reduces to the representative `0`. -/
def zeroq (_q : ℕ) : ℕ := 0

/-- `Element::one()` is `from(1)`: representative `1 % q`. -/
def oneq (q : ℕ) : ℕ := 1 % q

/-- `Element::negone()` is `zero() - one()` (`src/lib.rs` lines 55-57). -/
def negoneq (q : ℕ) : ℕ := subq q (zeroq q) (oneq q)

/-- `Element::zero_disp` (`src/lib.rs` lines 64-75): the minimum of the
representative of `self * negone()` and the representative of `self`.
Modelled from the spec: `zero_dist` (the unsigned variant used by
`LWEScalar::try_open`) is not under `src/`; per the spec (§4.1) it returns
the same measurement as `zero_disp`, as an unsigned value. -/
def zero_dist (q x : ℕ) : ℕ := min (mulq q x (negoneq q)) x

/-- Rust `usize::div_ceil`. -/
def divCeil (a b : ℕ) : ℕ := (a + b - 1) / b

/-- `Element::bits_vec_len` (`src/lib.rs` lines 81-83).  `bw` stands for the
associated constant `Element::BIT_WIDTH`, which every concrete field
hard-codes as `ceil(log2(CARDINALITY))` (it is `1` for `BinaryScalar`,
`src/fields/binary.rs` line 12). -/
def bits_vec_len (bw bits : ℕ) : ℕ := divCeil bw bits

/-- `Element::as_le_bits_vec` (`src/lib.rs` lines 87-102): digit `i` is
`(x >> (bits * i)) % 2^bits`, embedded back into the field via `From<u128>`
(which reduces mod `q`).  The source loop breaks early once the remaining
value is zero, leaving the later slots at `E::default() = 0`; for those
slots the formula below also yields `0`, so the early break is
behaviour-preserving.  The trailing `assert_eq!(v, 0)` always holds for a
canonical representative `x < q ≤ 2^BIT_WIDTH`. -/
def as_le_bits_vec (q bw bits x : ℕ) : List ℕ :=
  (List.range (bits_vec_len bw bits)).map (fun i => ((x >>> (bits * i)) % 2 ^ bits) % q)

/-- Loop body of `Element::from_le_bits_vec` (`src/lib.rs` lines 104-115):
`out += part * mult.into(); mult <<= bits_len;` where `mult` is a `u128`
(hence the wraparound modulo `2^128`) and `mult.into()` reduces mod `q`. -/
def from_le_bits_vecAux (q bl : ℕ) : List ℕ → ℕ → ℕ → ℕ
  | [], _, out => out
  | p :: rest, mult, out =>
      from_le_bits_vecAux q bl rest ((mult <<< bl) % 2 ^ 128) (addq q out (mulq q p (mult % q)))

/-- `Element::from_le_bits_vec` (`src/lib.rs` lines 104-115).  Note the
source initialises `mult = 1u128 << bits_len`, not `1`: the first digit is
already weighted by `2^bits_len`. -/
def from_le_bits_vec (q bw : ℕ) (parts : List ℕ) : ℕ :=
  from_le_bits_vecAux q (bits_vec_len bw parts.length) parts
    ((1 <<< bits_vec_len bw parts.length) % 2 ^ 128) 0

/-- C1: recomposition does NOT invert decomposition.  Over the binary field
(`q = 2`, `BIT_WIDTH = 1`), decomposing `x = 1` at bit-width `b = 1` yields
the single digit list `[1]`, but `from_le_bits_vec` weights that digit by
`2^bits_len = 2 ≡ 0 (mod 2)` and returns `0 ≠ 1`.  This evaluates the code
at the failing input of the round-trip claim. -/
theorem c1_roundtrip_fails_on_binary_field :
    as_le_bits_vec 2 1 1 1 = [1] ∧
    from_le_bits_vec 2 1 (as_le_bits_vec 2 1 1 1) = 0 ∧
    (0 : ℕ) ≠ 1 := by decide

/-- `AddAssign for Vector<E>` (`src/vector.rs` lines 167-174): asserts length
equality (a failed assert is the `none` case), then adds entrywise.  The
missing-from-`src/` reference variants (`AddAssign<&Vector>` etc., used by
`Matrix`/`LWEScalar`) are modelled from the spec with the same semantics
(spec §4.2: componentwise, dimension-checked, fatal on mismatch). -/
def vecAdd (q : ℕ) (a b : List ℕ) : Option (List ℕ) :=
  if a.length = b.length then some (List.zipWith (addq q) a b) else none

/-- `SubAssign for Vector<E>` (`src/vector.rs` lines 200-207). -/
def vecSub (q : ℕ) (a b : List ℕ) : Option (List ℕ) :=
  if a.length = b.length then some (List.zipWith (subq q) a b) else none

/-- `MulAssign for Vector<E>` (`src/vector.rs` lines 133-140): Hadamard
product, dimension-checked. -/
def vecMul (q : ℕ) (a b : List ℕ) : Option (List ℕ) :=
  if a.length = b.length then some (List.zipWith (mulq q) a b) else none

/-- `MulAssign<E> for Vector<E>` (`src/vector.rs` lines 117-123): scale every
entry by a scalar; no length precondition, never fatal. -/
def vecMulScalar (q : ℕ) (a : List ℕ) (s : ℕ) : List ℕ :=
  a.map (fun x => mulq q x s)

/-- `Matrix<E>` (`src/matrix.rs` lines 3-8): dense row-major grid with its
`width` and `height` fields stored alongside the rows. -/
structure MatrixZ where
  width : ℕ
  height : ℕ
  entries : List (List ℕ)
deriving DecidableEq

/-- The representation invariant every constructed `Matrix` satisfies:
`height` rows, each of length `width`. -/
def MatWF (M : MatrixZ) : Prop :=
  M.entries.length = M.height ∧ ∀ r ∈ M.entries, r.length = M.width

/-- Row-by-vector dot product shared by both matrix-vector products:
entrywise products folded by `+=` starting from the additive identity
(`Vector::into_sum`, `src/vector.rs` lines 33-39).  `zipWith` stops at the
shorter operand, which is exactly the truncation performed by the
`iter().zip(...)` loop of the by-reference product. -/
def dotTrunc (q : ℕ) (row v : List ℕ) : ℕ :=
  (List.zipWith (mulq q) row v).foldl (addq q) 0

/-- `Mul<&Vector<E>> for &Matrix<E>` (`src/matrix.rs` lines 100-115): maps
every row to the zip-truncated dot product with `v`.  There is no dimension
check: `row.iter().zip(rhs.iter())` silently stops at the shorter of the
two, so this operation never fails. -/
def matMulVecRef (q : ℕ) (M : MatrixZ) (v : List ℕ) : List ℕ :=
  M.entries.map (fun row => dotTrunc q row v)

/-- `Mul<&Vector<E>> for Matrix<E>` (`src/matrix.rs` lines 89-98): each row
is Hadamard-multiplied with `v` (`row * rhs`, whose `MulAssign` asserts
equal lengths — the fatal `none` case here) and summed.  When no row
mismatches the produced values coincide with the by-reference product. -/
def matMulVec (q : ℕ) (M : MatrixZ) (v : List ℕ) : Option (List ℕ) :=
  if M.entries.all (fun row => row.length = v.length) then some (matMulVecRef q M v)
  else none

/-- `AddAssign<&Self> for Matrix<E>` (`src/matrix.rs` lines 37-53): after
asserting equal widths and heights, the source iterates `for self_row in
self` and, NESTED inside it, `for other_row in rhs`, adding EVERY row of
`rhs` to each row of `self`.  The inner `+=` is the dimension-checked
entrywise vector addition. -/
def matAdd (q : ℕ) (M N : MatrixZ) : Option MatrixZ :=
  if M.width = N.width ∧ M.height = N.height then
    (M.entries.mapM (fun r => N.entries.foldlM (fun acc nr => vecAdd q acc nr) r)).map
      (fun e => { M with entries := e })
  else none

/-- C8: matrix addition is NOT the entrywise sum.  For the 2-by-1 matrices
`M = [[1],[2]]` and `N = [[3],[4]]` over `q = 101`, the nested loops add
both rows of `N` to each row of `M`, producing `[[8],[9]]`, whereas the
entrywise sum has entry `(0,0)` equal to `1 + 3 = 4`.  This evaluates the
code at the failing input. -/
theorem c8_matAdd_fails_entrywise :
    matAdd 101 ⟨1, 2, [[1], [2]]⟩ ⟨1, 2, [[3], [4]]⟩ =
      some ⟨1, 2, [[8], [9]]⟩ ∧
    addq 101 1 3 = 4 ∧ (8 : ℕ) ≠ 4 := by decide

/-- C7 counterexample: the by-reference matrix-vector product does NOT fail
fatally on a length mismatch.  For the 1-by-2 matrix `[[1, 2]]` and the
length-1 vector `[5]` (`len(v) = 1 ≠ 2 = W`) it silently truncates and
returns the normal result `[5]`; only the by-value product aborts there. -/
theorem c7_refMul_no_dimension_check :
    matMulVecRef 101 ⟨2, 1, [[1, 2]]⟩ [5] = [5] ∧
    ([5] : List ℕ).length ≠ (⟨2, 1, [[1, 2]]⟩ : MatrixZ).width ∧
    matMulVec 101 ⟨2, 1, [[1, 2]]⟩ [5] = none := by decide

/-- C7 (amended): for a well-formed `(H, W)` matrix, the BY-VALUE product
fails fatally exactly on a length mismatch (given at least one row) and,
when `len(v) = W`, both products return the same length-`H` vector whose
`i`-th entry is the dot product of row `i` with `v`; the BY-REFERENCE
product performs no dimension check and always returns the zip-truncated
dot products. -/
theorem c7_matMulVec_spec (q : ℕ) (M : MatrixZ) (v : List ℕ) (hwf : MatWF M) :
    (v.length = M.width →
      matMulVec q M v = some (matMulVecRef q M v) ∧
      (matMulVecRef q M v).length = M.height ∧
      ∀ i : Fin M.entries.length,
        (matMulVecRef q M v)[i.1]? = some (dotTrunc q (M.entries.get i) v)) ∧
    (v.length ≠ M.width → M.entries ≠ [] → matMulVec q M v = none) := by
  obtain ⟨hh, hrow⟩ := hwf
  constructor
  · intro hv
    refine ⟨?_, ?_, ?_⟩
    · unfold matMulVec
      rw [if_pos]
      rw [List.all_eq_true]
      intro r hr
      simp only [decide_eq_true_eq]
      rw [hrow r hr, hv]
    · simp [matMulVecRef, hh]
    · intro i
      simp [matMulVecRef, List.getElem?_map, List.getElem?_eq_getElem i.2, List.get_eq_getElem]
  · intro hv hne
    unfold matMulVec
    rw [if_neg]
    rw [List.all_eq_true]
    intro hall
    obtain ⟨r, hr⟩ := List.exists_mem_of_ne_nil M.entries hne
    have := hall r hr
    simp only [decide_eq_true_eq] at this
    exact hv (by rw [← hrow r hr, this])

/-- C7 witness: the amended product theorem at `q = 5`,
`M = [[1],[2]]` (shape `(2,1)`), `v = [3]`. -/
theorem c7_matMulVec_spec_witness :
    matMulVec 5 ⟨1, 2, [[1], [2]]⟩ [3] = some (matMulVecRef 5 ⟨1, 2, [[1], [2]]⟩ [3]) ∧
    (matMulVecRef 5 ⟨1, 2, [[1], [2]]⟩ [3]).length = 2 :=
  ⟨((c7_matMulVec_spec 5 ⟨1, 2, [[1], [2]]⟩ [3] (by constructor <;> decide)).1 rfl).1,
   ((c7_matMulVec_spec 5 ⟨1, 2, [[1], [2]]⟩ [3] (by constructor <;> decide)).1 rfl).2.1⟩

/-- Every element produced by the dot-product fold is a canonical
representative below `q`. -/
lemma foldl_addq_lt (q : ℕ) (hq : 0 < q) :
    ∀ (l : List ℕ) (a : ℕ), a < q → l.foldl (addq q) a < q := by
  intro l
  induction l with
  | nil => intro a ha; exact ha
  | cons x xs ih =>
      intro a _
      exact ih (addq q a x) (Nat.mod_lt _ hq)

lemma dotTrunc_lt (q : ℕ) (hq : 0 < q) (row v : List ℕ) : dotTrunc q row v < q :=
  foldl_addq_lt q hq _ 0 hq

/-- Field cancellation on representatives: `(a + v) - a = v`. -/
lemma subq_addq_cancel (q a v : ℕ) (ha : a < q) (hv : v < q) :
    subq q (addq q a v) a = v := by
  unfold subq addq
  rw [Nat.mod_eq_of_lt ha, Nat.mod_add_mod]
  have h1 : a + v + (q - a) = v + q := by omega
  rw [h1, Nat.add_mod_right, Nat.mod_eq_of_lt hv]

/-- Entrywise form of the cancellation: subtracting `p` from `p + val`
recovers `val` when all entries are canonical representatives. -/
lemma zipWith_subq_addq_cancel (q : ℕ) :
    ∀ (p val : List ℕ), p.length = val.length → (∀ x ∈ p, x < q) →
      (∀ x ∈ val, x < q) →
      List.zipWith (subq q) (List.zipWith (addq q) p val) p = val := by
  intro p
  induction p with
  | nil =>
      intro val hlen _ _
      have hnil : val = [] := List.length_eq_zero.mp hlen.symm
      simp [hnil]
  | cons a p ih =>
      intro val hlen hp hval
      cases val with
      | nil => simp at hlen
      | cons v vs =>
          simp only [List.zipWith_cons_cons, List.cons.injEq]
          refine ⟨subq_addq_cancel q a v (hp a (by simp)) (hval v (by simp)), ?_⟩
          exact ih vs (by simpa using hlen) (fun x hx => hp x (by simp [hx]))
            (fun x hx => hval x (by simp [hx]))

/-- `Vector::random` (`src/vector.rs` lines 17-23): `len` successive draws
of `Element::sample_rand`.  The caller-provided RNG is modelled as an
infinite tape `stream` of raw draws; `sample_rand` reduces a draw into
`[0, CARDINALITY)`, and `start` counts the draws already consumed by
earlier sampling calls. -/
def vectorRandom (q len start : ℕ) (stream : ℕ → ℕ) : List ℕ :=
  (List.range len).map (fun i => stream (start + i) % q)

/-- `BDLOPScalar<E>` (`src/commitments/bdlop_scalar.rs` lines 13-19). -/
structure BDLOPScalarZ where
  a_1 : MatrixZ
  a_2 : MatrixZ
  c_1 : List ℕ
  c_2 : List ℕ
deriving DecidableEq

/-- `BDLOPScalar::commit` (`src/commitments/bdlop_scalar.rs` lines 65-82):
`r_1 = Vector::random(a_1.height(), rng)` — the HEIGHT of `A1`, not its
width — then `r_2 = Vector::random(msg_len, rng)`,
`c_1 = &a_1 * &r_1` (the zip-truncating by-reference product) and
`c_2 = &a_2 * &r_2 + &val` (truncating product plus dimension-checked
vector addition; the failed assert is the `none` case).
Modelled from the spec: the `Matrix::height()` accessor is not under
`src/`; per `Matrix::dimension` (`src/matrix.rs` lines 31-34) it returns
the stored `height` field, and `Add<&Vector> for Vector` is the
componentwise dimension-checked addition of spec §4.2. -/
def bdlopCommit (q : ℕ) (val : List ℕ) (a1 a2 : MatrixZ) (stream : ℕ → ℕ) :
    Option ((List ℕ × List ℕ) × BDLOPScalarZ) :=
  let r1 := vectorRandom q a1.height 0 stream
  let r2 := vectorRandom q val.length a1.height stream
  let c1 := matMulVecRef q a1 r1
  (vecAdd q (matMulVecRef q a2 r2) val).map (fun c2 => ((r1, r2), ⟨a1, a2, c1, c2⟩))

/-- `BDLOPScalar::try_open` (`src/commitments/bdlop_scalar.rs` lines 87-93):
fail with an incorrect-secret error (`Except.error`) when
`&a_1 * r_1 != c_1`; otherwise return `c_2 - &a_2 * r_2` without checking
`r_2`.  The outer `Option` models the fatal length assert of the vector
subtraction (modelled from the spec, §4.2, as the other reference-variant
vector operations). -/
def bdlopTryOpen (q : ℕ) (c : BDLOPScalarZ) (r1 r2 : List ℕ) :
    Option (Except Unit (List ℕ)) :=
  if matMulVecRef q c.a_1 r1 ≠ c.c_1 then some (Except.error ())
  else (vecSub q c.c_2 (matMulVecRef q c.a_2 r2)).map Except.ok

/-- What `BDLOPScalar::commit` actually produces, in closed form, whenever
the height of `A2` matches the message length (otherwise the addition
building `c_2` aborts). -/
lemma bdlopCommit_eq (q : ℕ) (val : List ℕ) (a1 a2 : MatrixZ) (stream : ℕ → ℕ)
    (hlen : a2.entries.length = val.length) :
    bdlopCommit q val a1 a2 stream =
      some ((vectorRandom q a1.height 0 stream,
             vectorRandom q val.length a1.height stream),
        ⟨a1, a2, matMulVecRef q a1 (vectorRandom q a1.height 0 stream),
          List.zipWith (addq q)
            (matMulVecRef q a2 (vectorRandom q val.length a1.height stream)) val⟩) := by
  have hl : (matMulVecRef q a2 (vectorRandom q val.length a1.height stream)).length
      = val.length := by simp [matMulVecRef, hlen]
  simp [bdlopCommit, vecAdd, hl]

/-- C2 counterexample: `commit` samples `r1` of length `height(A1)`, not
`width(A1)`.  With `A1` of shape `(1, 2)` and `A2` of shape `(1, 1)`,
committing `val = [3]` over `q = 101` draws an `r1` of length `1`, while
the claim requires length `width(A1) = 2`. -/
theorem c2_counterexample :
    (bdlopCommit 101 [3] ⟨2, 1, [[1, 1]]⟩ ⟨1, 1, [[0]]⟩ (fun n => n + 1)).map
      (fun x => x.1.1.length) = some 1 ∧
    (⟨2, 1, [[1, 1]]⟩ : MatrixZ).width = 2 ∧ (1 : ℕ) ≠ 2 := by decide

/-- C2 (amended): for every message `val` of length `m` and lattice pair
`(A1, A2)` with `height(A2) = m`, `commit` samples `r1` of length
`height(A1)` and `r2` of length `m`, and produces `c1` as the
zip-truncated product of `A1` with `r1` and `c2` as the zip-truncated
product of `A2` with `r2` plus `val` entrywise. -/
theorem c2_bdlop_commit_shapes (q : ℕ) (val : List ℕ) (a1 a2 : MatrixZ)
    (stream : ℕ → ℕ) (hlen : a2.entries.length = val.length) :
    bdlopCommit q val a1 a2 stream =
      some ((vectorRandom q a1.height 0 stream,
             vectorRandom q val.length a1.height stream),
        ⟨a1, a2, matMulVecRef q a1 (vectorRandom q a1.height 0 stream),
          List.zipWith (addq q)
            (matMulVecRef q a2 (vectorRandom q val.length a1.height stream)) val⟩) ∧
    (vectorRandom q a1.height 0 stream).length = a1.height ∧
    (vectorRandom q val.length a1.height stream).length = val.length :=
  ⟨bdlopCommit_eq q val a1 a2 stream hlen, by simp [vectorRandom], by simp [vectorRandom]⟩

/-- C2 witness: the amended commit theorem at `q = 101`, `val = [3]`,
`A1 = [[1, 1]]`, `A2 = [[0]]`, tape `n ↦ n + 1`. -/
theorem c2_bdlop_commit_shapes_witness :
    bdlopCommit 101 [3] ⟨2, 1, [[1, 1]]⟩ ⟨1, 1, [[0]]⟩ (fun n => n + 1) =
      some ((vectorRandom 101 1 0 (fun n => n + 1),
             vectorRandom 101 1 1 (fun n => n + 1)),
        ⟨⟨2, 1, [[1, 1]]⟩, ⟨1, 1, [[0]]⟩,
          matMulVecRef 101 ⟨2, 1, [[1, 1]]⟩ (vectorRandom 101 1 0 (fun n => n + 1)),
          List.zipWith (addq 101)
            (matMulVecRef 101 ⟨1, 1, [[0]]⟩ (vectorRandom 101 1 1 (fun n => n + 1)))
            [3]⟩) :=
  (c2_bdlop_commit_shapes 101 [3] ⟨2, 1, [[1, 1]]⟩ ⟨1, 1, [[0]]⟩ (fun n => n + 1)
    (by decide)).1

/-- C3: opening a freshly produced BDLOP commitment with the returned
secret pair succeeds and returns exactly the committed vector.  The
hypotheses are the conditions under which `commit` itself completes:
canonical message entries and `height(A2)` equal to the message length. -/
theorem c3_bdlop_open_roundtrip (q : ℕ) (val : List ℕ) (a1 a2 : MatrixZ)
    (stream : ℕ → ℕ) (hq : 0 < q) (hval : ∀ x ∈ val, x < q)
    (hlen : a2.entries.length = val.length) :
    ∀ r1 r2 com, bdlopCommit q val a1 a2 stream = some ((r1, r2), com) →
      bdlopTryOpen q com r1 r2 = some (Except.ok val) := by
  intro r1 r2 com h
  rw [bdlopCommit_eq q val a1 a2 stream hlen] at h
  simp only [Option.some.injEq, Prod.mk.injEq] at h
  obtain ⟨⟨hr1, hr2⟩, hcom⟩ := h
  subst hr1; subst hr2; subst hcom
  unfold bdlopTryOpen
  rw [if_neg (by simp)]
  have hplen : (matMulVecRef q a2 (vectorRandom q val.length a1.height stream)).length
      = val.length := by simp [matMulVecRef, hlen]
  have hp : ∀ x ∈ matMulVecRef q a2 (vectorRandom q val.length a1.height stream), x < q := by
    intro x hx
    simp only [matMulVecRef, List.mem_map] at hx
    obtain ⟨row, _, hrow⟩ := hx
    exact hrow ▸ dotTrunc_lt q hq row _
  have hc2len : (List.zipWith (addq q)
      (matMulVecRef q a2 (vectorRandom q val.length a1.height stream)) val).length
      = (matMulVecRef q a2 (vectorRandom q val.length a1.height stream)).length := by
    rw [List.length_zipWith, hplen, Nat.min_self]
  simp only [vecSub, hc2len, if_pos rfl, Option.map_some]
  rw [zipWith_subq_addq_cancel q _ val hplen hp hval]
  simp

/-- C3 witness: opening the concrete commitment of `val = [3]` from the
C2 witness instance recovers `[3]`. -/
theorem c3_bdlop_open_roundtrip_witness :
    bdlopTryOpen 101 ⟨⟨2, 1, [[1, 1]]⟩, ⟨1, 1, [[0]]⟩, [1], [3]⟩ [1] [2] =
      some (Except.ok [3]) :=
  c3_bdlop_open_roundtrip 101 [3] ⟨2, 1, [[1, 1]]⟩ ⟨1, 1, [[0]]⟩ (fun n => n + 1)
    (by decide) (by decide) (by decide) [1] [2]
    ⟨⟨2, 1, [[1, 1]]⟩, ⟨1, 1, [[0]]⟩, [1], [3]⟩ (by decide)

/-- The `+=` fold computes the plain sum reduced modulo `q`. -/
lemma foldl_addq_eq_sum_mod (q : ℕ) :
    ∀ (l : List ℕ) (a : ℕ), l.foldl (addq q) (a % q) = (a + l.sum) % q := by
  intro l
  induction l with
  | nil => intro a; simp
  | cons x xs ih =>
      intro a
      have hstep : addq q (a % q) x = (a + x) % q := by
        unfold addq; rw [Nat.mod_add_mod]
      rw [List.foldl_cons, hstep, ih (a + x), List.sum_cons]
      ring_nf

lemma dotTrunc_eq_sum_mod (q : ℕ) (r v : List ℕ) :
    dotTrunc q r v = (List.zipWith (mulq q) r v).sum % q := by
  unfold dotTrunc
  rw [show (0 : ℕ) = 0 % q from (Nat.zero_mod q).symm, foldl_addq_eq_sum_mod]
  simp

/-- Sum-level linearity modulo `q` of the row dot product. -/
lemma zip_mul_add_modeq (q : ℕ) :
    ∀ (r a b : List ℕ), r.length = a.length → a.length = b.length →
      (List.zipWith (mulq q) r (List.zipWith (addq q) a b)).sum ≡
        (List.zipWith (mulq q) r a).sum + (List.zipWith (mulq q) r b).sum [MOD q] := by
  intro r
  induction r with
  | nil => intro a b _ _; simp [Nat.ModEq.refl]
  | cons x r ih =>
      intro a b h1 h2
      cases a with
      | nil => simp at h1
      | cons y a =>
          cases b with
          | nil => simp at h2
          | cons z b =>
              simp only [List.zipWith_cons_cons, List.sum_cons]
              have hx : mulq q x (addq q y z) ≡ x * y + x * z [MOD q] := by
                calc mulq q x (addq q y z)
                    ≡ x * ((y + z) % q) [MOD q] := Nat.mod_modEq _ q
                  _ ≡ x * (y + z) [MOD q] := Nat.ModEq.mul_left x (Nat.mod_modEq _ q)
                  _ = x * y + x * z := by ring
              have hy : (mulq q x y : ℕ) ≡ x * y [MOD q] := Nat.mod_modEq _ q
              have hz : (mulq q x z : ℕ) ≡ x * z [MOD q] := Nat.mod_modEq _ q
              have hrest := ih a b (by simpa using h1) (by simpa using h2)
              calc mulq q x (addq q y z) +
                    (List.zipWith (mulq q) r (List.zipWith (addq q) a b)).sum
                  ≡ (x * y + x * z) +
                    ((List.zipWith (mulq q) r a).sum + (List.zipWith (mulq q) r b).sum)
                    [MOD q] := Nat.ModEq.add hx hrest
                _ = (x * y + (List.zipWith (mulq q) r a).sum) +
                    (x * z + (List.zipWith (mulq q) r b).sum) := by ring
                _ ≡ (mulq q x y + (List.zipWith (mulq q) r a).sum) +
                    (mulq q x z + (List.zipWith (mulq q) r b).sum) [MOD q] :=
                    (Nat.ModEq.add (Nat.ModEq.add_right _ hy.symm)
                      (Nat.ModEq.add_right _ hz.symm))

/-- Row-level linearity: the dot product of a row with an entrywise sum is
the field sum of the two dot products. -/
lemma dotTrunc_addq (q : ℕ) (r a b : List ℕ) (h1 : r.length = a.length)
    (h2 : a.length = b.length) :
    dotTrunc q r (List.zipWith (addq q) a b) =
      addq q (dotTrunc q r a) (dotTrunc q r b) := by
  rw [dotTrunc_eq_sum_mod, dotTrunc_eq_sum_mod, dotTrunc_eq_sum_mod]
  unfold addq
  rw [← Nat.add_mod]
  exact zip_mul_add_modeq q r a b h1 h2

/-- Zipping two images of the same list combines them pointwise. -/
lemma zipWith_map_self {α : Type} (op : ℕ → ℕ → ℕ) (f g : α → ℕ) :
    ∀ l : List α, List.zipWith op (l.map f) (l.map g) = l.map (fun x => op (f x) (g x)) := by
  intro l
  induction l with
  | nil => rfl
  | cons x xs ih => simp [ih]

/-- `SISScalar<E>` (`src/commitments/sis_scalar.rs` lines 5-10). -/
structure SISScalarZ where
  lattice : MatrixZ
  secret : List ℕ
  commitment : List ℕ
deriving DecidableEq

/-- `SISScalar::commit` (`src/commitments/sis_scalar.rs` lines 17-26) with a
supplied lattice (the `Some` branch; under `None` the source draws a fresh
random matrix of height `len(val) * BIT_WIDTH`, which the same-lattice
claims never exercise).  The commitment is the by-value dimension-checked
product `lattice.clone() * val`; its fatal assert is the `none` case, and
`val` is stored as `secret`. -/
def sisCommit (q : ℕ) (val : List ℕ) (lattice : MatrixZ) : Option SISScalarZ :=
  (matMulVec q lattice val).map (fun c => ⟨lattice, val, c⟩)

/-- `AddAssign for SISScalar` (`src/commitments/sis_scalar.rs` lines 37-41):
`self.commitment += rhs.commitment`, leaving `lattice` and `secret`
untouched; the commitment addition is dimension-checked. -/
def sisAdd (q : ℕ) (a b : SISScalarZ) : Option SISScalarZ :=
  (vecAdd q a.commitment b.commitment).map (fun c => ⟨a.lattice, a.secret, c⟩)

/-- `MulAssign<E> for SISScalar` (`src/commitments/sis_scalar.rs`
lines 51-55): scales only the commitment vector. -/
def sisMulScalar (q : ℕ) (a : SISScalarZ) (s : ℕ) : SISScalarZ :=
  ⟨a.lattice, a.secret, vecMulScalar q a.commitment s⟩

/-- `MulAssign<Vector<E>> for SISScalar` (`src/commitments/sis_scalar.rs`
lines 65-69): Hadamard-multiplies only the commitment vector
(dimension-checked). -/
def sisMulVec (q : ℕ) (a : SISScalarZ) (v : List ℕ) : Option SISScalarZ :=
  (vecMul q a.commitment v).map (fun c => ⟨a.lattice, a.secret, c⟩)

/-- C4: SIS commitments over the same lattice are additively homomorphic:
the sum of `commit(a)` and `commit(b)` has commitment vector equal to that
of a direct commitment to the entrywise sum `a + b`. -/
theorem c4_sis_additive_homomorphism (q : ℕ) (L : MatrixZ) (a b : List ℕ)
    (hwf : MatWF L) (ha : a.length = L.width) (hb : b.length = L.width) :
    ∀ ca cb cs, sisCommit q a L = some ca → sisCommit q b L = some cb →
      sisCommit q (List.zipWith (addq q) a b) L = some cs →
      ∃ cab, sisAdd q ca cb = some cab ∧ cab.commitment = cs.commitment := by
  obtain ⟨hwfh, hwfr⟩ := hwf
  have hok : ∀ v : List ℕ, v.length = L.width →
      matMulVec q L v = some (matMulVecRef q L v) := by
    intro v hv
    unfold matMulVec
    rw [if_pos]
    rw [List.all_eq_true]
    intro r hr
    simp [hwfr r hr, hv]
  have hab : (List.zipWith (addq q) a b).length = L.width := by
    rw [List.length_zipWith, ha, hb, Nat.min_self]
  intro ca cb cs hca hcb hcs
  unfold sisCommit at hca hcb hcs
  rw [hok a ha] at hca
  rw [hok b hb] at hcb
  rw [hok _ hab] at hcs
  simp only [Option.map_some', Option.some.injEq] at hca hcb hcs
  subst hca; subst hcb; subst hcs
  have hlen : (matMulVecRef q L a).length = (matMulVecRef q L b).length := by
    simp [matMulVecRef]
  refine ⟨⟨L, a, List.zipWith (addq q) (matMulVecRef q L a) (matMulVecRef q L b)⟩, ?_, ?_⟩
  · simp [sisAdd, vecAdd, hlen]
  · show List.zipWith (addq q) (matMulVecRef q L a) (matMulVecRef q L b) =
      matMulVecRef q L (List.zipWith (addq q) a b)
    unfold matMulVecRef
    rw [zipWith_map_self]
    apply List.map_congr_left
    intro r hr
    exact (dotTrunc_addq q r a b (by rw [hwfr r hr, ha]) (by rw [ha, hb])).symm

/-- C4 witness: the homomorphism at `q = 5`, `L = [[1],[2]]` (shape
`(2,1)`), `a = [1]`, `b = [2]`. -/
theorem c4_sis_additive_homomorphism_witness :
    ∃ cab, sisAdd 5 ⟨⟨1, 2, [[1], [2]]⟩, [1], [1, 2]⟩ ⟨⟨1, 2, [[1], [2]]⟩, [2], [2, 4]⟩ =
        some cab ∧
      cab.commitment = (⟨⟨1, 2, [[1], [2]]⟩, [3], [3, 1]⟩ : SISScalarZ).commitment :=
  c4_sis_additive_homomorphism 5 ⟨1, 2, [[1], [2]]⟩ [1] [2]
    (by constructor <;> decide) (by decide) (by decide)
    ⟨⟨1, 2, [[1], [2]]⟩, [1], [1, 2]⟩ ⟨⟨1, 2, [[1], [2]]⟩, [2], [2, 4]⟩
    ⟨⟨1, 2, [[1], [2]]⟩, [3], [3, 1]⟩ (by decide) (by decide) (by decide)

/-- `LWEScalar<E>` (`src/commitments/lwe_scalar.rs` lines 5-9). -/
structure LWEScalarZ where
  lattice : MatrixZ
  commitment : List ℕ
deriving DecidableEq

/-- `LWEScalar::try_open` (`src/commitments/lwe_scalar.rs` lines 35-49):
recompute `&lattice * val` (the zip-truncating by-reference product),
subtract it from the stored commitment (dimension-checked vector
subtraction, fatal `none` on mismatch), then scan the recovered error
vector in order and bail with the FIRST offending zero-distance together
with the bound (`Except.error (dist, max_err)`); if every entry is within
the bound, return the error vector. -/
def lweTryOpen (q : ℕ) (c : LWEScalarZ) (val : List ℕ) (maxErr : ℕ) :
    Option (Except (ℕ × ℕ) (List ℕ)) :=
  (vecSub q c.commitment (matMulVecRef q c.lattice val)).map (fun err =>
    match err.find? (fun e => maxErr < zero_dist q e) with
    | some e => Except.error (zero_dist q e, maxErr)
    | none => Except.ok err)

/-- `AddAssign<&Self> for LWEScalar` (`src/commitments/lwe_scalar.rs`
lines 74-78): `self.commitment += &rhs.commitment` only. -/
def lweAdd (q : ℕ) (a b : LWEScalarZ) : Option LWEScalarZ :=
  (vecAdd q a.commitment b.commitment).map (fun c => ⟨a.lattice, c⟩)

/-- `SubAssign<&Self> for LWEScalar` (`src/commitments/lwe_scalar.rs`
lines 60-64): `self.commitment -= &rhs.commitment` only. -/
def lweSub (q : ℕ) (a b : LWEScalarZ) : Option LWEScalarZ :=
  (vecSub q a.commitment b.commitment).map (fun c => ⟨a.lattice, c⟩)

/-- `MulAssign<E> for LWEScalar` (`src/commitments/lwe_scalar.rs`
lines 88-92): scales only the commitment vector. -/
def lweMulScalar (q : ℕ) (a : LWEScalarZ) (s : ℕ) : LWEScalarZ :=
  ⟨a.lattice, vecMulScalar q a.commitment s⟩

/-- `MulAssign<&Vector<E>> for LWEScalar` (`src/commitments/lwe_scalar.rs`
lines 102-106): Hadamard-multiplies only the commitment vector. -/
def lweMulVec (q : ℕ) (a : LWEScalarZ) (v : List ℕ) : Option LWEScalarZ :=
  (vecMul q a.commitment v).map (fun c => ⟨a.lattice, c⟩)

/-- C5: `try_open` subtracts the recomputed `lattice · val` from the stored
commitment to obtain the implied error vector; it returns that vector when
every entry's zero-distance is within `max_err`, and otherwise fails with
an error carrying an offending distance (the first offender's) and the
bound.  The length hypothesis is the fatal-assert precondition of the
subtraction, satisfied by every commitment the scheme produces. -/
theorem c5_lwe_try_open (q : ℕ) (c : LWEScalarZ) (val : List ℕ) (maxErr : ℕ)
    (hlen : c.commitment.length = c.lattice.entries.length) :
    ((∀ e ∈ List.zipWith (subq q) c.commitment (matMulVecRef q c.lattice val),
        zero_dist q e ≤ maxErr) →
      lweTryOpen q c val maxErr =
        some (Except.ok (List.zipWith (subq q) c.commitment
          (matMulVecRef q c.lattice val)))) ∧
    ((∃ e ∈ List.zipWith (subq q) c.commitment (matMulVecRef q c.lattice val),
        maxErr < zero_dist q e) →
      ∃ d, maxErr < d ∧
        (∃ e ∈ List.zipWith (subq q) c.commitment (matMulVecRef q c.lattice val),
          d = zero_dist q e) ∧
        lweTryOpen q c val maxErr = some (Except.error (d, maxErr))) := by
  have hsub : vecSub q c.commitment (matMulVecRef q c.lattice val) =
      some (List.zipWith (subq q) c.commitment (matMulVecRef q c.lattice val)) := by
    unfold vecSub
    rw [if_pos]
    simp [matMulVecRef, hlen]
  constructor
  · intro hall
    have hfind : (List.zipWith (subq q) c.commitment
        (matMulVecRef q c.lattice val)).find? (fun e => maxErr < zero_dist q e) = none := by
      rw [List.find?_eq_none]
      intro x hx
      simp only [decide_eq_true_eq, not_lt]
      exact hall x hx
    unfold lweTryOpen
    rw [hsub]
    simp [hfind]
  · intro hex
    obtain ⟨e0, he0mem, he0⟩ := hex
    have hsome : ((List.zipWith (subq q) c.commitment
        (matMulVecRef q c.lattice val)).find? (fun e => maxErr < zero_dist q e)).isSome := by
      rw [List.find?_isSome]
      exact ⟨e0, he0mem, by simpa using he0⟩
    obtain ⟨e1, he1⟩ := Option.isSome_iff_exists.mp hsome
    have he1p : maxErr < zero_dist q e1 := by
      have := List.find?_some he1
      simpa using this
    have he1mem : e1 ∈ List.zipWith (subq q) c.commitment
        (matMulVecRef q c.lattice val) := List.mem_of_find?_eq_some he1
    refine ⟨zero_dist q e1, he1p, ⟨e1, he1mem, rfl⟩, ?_⟩
    unfold lweTryOpen
    rw [hsub]
    simp [he1]

/-- C5 witness: opening `c = ⟨[[2]], [3]⟩` against `val = [1]` over `q = 5`
with `max_err = 1` succeeds and returns the implied error vector `[1]`. -/
theorem c5_lwe_try_open_witness :
    lweTryOpen 5 ⟨⟨1, 1, [[2]]⟩, [3]⟩ [1] 1 =
      some (Except.ok (List.zipWith (subq 5) [3]
        (matMulVecRef 5 ⟨1, 1, [[2]]⟩ [1]))) :=
  (c5_lwe_try_open 5 ⟨⟨1, 1, [[2]]⟩, [3]⟩ [1] 1 (by decide)).1 (by decide)

/-- C10: every homomorphic combination of SIS or LWE commitments touches
only the commitment vector: whenever the operation completes, the result's
stored lattice — and, for SIS, the stored secret — are exactly the left
operand's, unchanged.  Covers SIS add / scalar mul / vector mul and LWE
add / sub / scalar mul / vector mul. -/
theorem c10_homomorphic_ops_frame (q : ℕ) (a b : SISScalarZ) (x y : LWEScalarZ)
    (s : ℕ) (v : List ℕ) :
    (∀ c, sisAdd q a b = some c → c.lattice = a.lattice ∧ c.secret = a.secret) ∧
    ((sisMulScalar q a s).lattice = a.lattice ∧ (sisMulScalar q a s).secret = a.secret) ∧
    (∀ c, sisMulVec q a v = some c → c.lattice = a.lattice ∧ c.secret = a.secret) ∧
    (∀ c, lweAdd q x y = some c → c.lattice = x.lattice) ∧
    (∀ c, lweSub q x y = some c → c.lattice = x.lattice) ∧
    (lweMulScalar q x s).lattice = x.lattice ∧
    (∀ c, lweMulVec q x v = some c → c.lattice = x.lattice) := by
  refine ⟨?_, ⟨rfl, rfl⟩, ?_, ?_, ?_, rfl, ?_⟩ <;>
    · intro c hc
      simp only [sisAdd, sisMulVec, lweAdd, lweSub, lweMulVec, Option.map_eq_some'] at hc
      obtain ⟨w, _, hw⟩ := hc
      subst hw
      first
        | exact ⟨rfl, rfl⟩
        | rfl

/-- C10 witness: the frame theorem applied at concrete commitments over
`q = 5` (singleton vectors, so every dimension-checked operation
completes). -/
theorem c10_homomorphic_ops_frame_witness :
    ((⟨⟨1, 1, [[3]]⟩, [7], [3]⟩ : SISScalarZ).lattice = ⟨1, 1, [[3]]⟩ ∧
      (⟨⟨1, 1, [[3]]⟩, [7], [3]⟩ : SISScalarZ).secret = [7]) ∧
    ((⟨⟨1, 1, [[4]]⟩, [3]⟩ : LWEScalarZ).lattice = ⟨1, 1, [[4]]⟩) ∧
    (sisMulScalar 5 ⟨⟨1, 1, [[3]]⟩, [7], [1]⟩ 3).lattice = ⟨1, 1, [[3]]⟩ ∧
    (lweMulScalar 5 ⟨⟨1, 1, [[4]]⟩, [2]⟩ 3).lattice = ⟨1, 1, [[4]]⟩ := by
  have h := c10_homomorphic_ops_frame 5 ⟨⟨1, 1, [[3]]⟩, [7], [1]⟩ ⟨⟨1, 1, [[3]]⟩, [8], [2]⟩
    ⟨⟨1, 1, [[4]]⟩, [2]⟩ ⟨⟨1, 1, [[4]]⟩, [1]⟩ 3 [2]
  exact ⟨h.1 ⟨⟨1, 1, [[3]]⟩, [7], [3]⟩ (by decide),
    h.2.2.2.1 ⟨⟨1, 1, [[4]]⟩, [3]⟩ (by decide),
    h.2.1.1, h.2.2.2.2.2.1⟩

/-- Normalization pass of `GaussianCDT::new` (`src/probability/gaussian.rs`
lines 86-92): the input list pairs each displacement with its unnormalized
weight (the source computes `exp(-d^2 / (2*theta^2))` in `f64`; we take
the weights as given and compute exactly in `ℚ`, since the claims concern
the table/scan structure, not float rounding).  Each stored probability is
replaced by the cumulative PREFIX sum of the normalized weights strictly
before it — the running `normalized_sum` BEFORE adding the entry's own
normalized weight. -/
def cdtCumAux (total : ℚ) : List (ℚ × ℤ) → ℚ → List (ℚ × ℤ)
  | [], _ => []
  | (p, d) :: rest, acc => (acc, d) :: cdtCumAux total rest (acc + p / total)

/-- The displacement table built by `GaussianCDT::new` from a weight list:
cumulative thresholds ascending, paired with their displacements. -/
def cdtCumulative (ws : List (ℚ × ℤ)) : List (ℚ × ℤ) :=
  cdtCumAux ((ws.map Prod.fst).sum) ws 0

/-- The scan loop of `GaussianCDT::sample` (`src/probability/gaussian.rs`
lines 32-42): for `i` in `0 .. len - 1`, return `displacements[i].1` when
`thresholds[i] <= r < thresholds[i+1]`.  The `none` result models the
`panic!("sampled probability is outside CDT")` reached when the loop
finishes without a hit.  Note the LAST table entry only ever serves as an
upper bound for its predecessor: no iteration covers
`[thresholds[len-1], 1)`. -/
def gaussScan (r : ℚ) : List (ℚ × ℤ) → Option ℤ
  | (t1, d1) :: (t2, d2) :: rest =>
      if t1 ≤ r ∧ r < t2 then some d1 else gaussScan r ((t2, d2) :: rest)
  | _ => none

/-- C6: the fatal outside-all-buckets failure IS reachable for a correctly
built, correctly normalized table.  With equal weights on displacements
`-1, 0, 1` the cumulative thresholds are `[0, 1/3, 2/3]`; the uniform draw
`r = 5/6 ∈ [0, 1)` lies in the final bucket `[2/3, 1)`, which the scan
never tests, so `sample` panics and displacement `1` is unreachable. -/
theorem c6_sample_panics_inside_unit_interval :
    (cdtCumulative [(1, -1), (1, 0), (1, 1)]).map Prod.fst = [0, 1/3, 2/3] ∧
    gaussScan (5/6) (cdtCumulative [(1, -1), (1, 0), (1, 1)]) = none ∧
    (0 : ℚ) ≤ 5/6 ∧ (5/6 : ℚ) < 1 := by
  refine ⟨?_, ?_, by norm_num, by norm_num⟩
  · norm_num [cdtCumulative, cdtCumAux]
  · norm_num [cdtCumulative, cdtCumAux, gaussScan]

/-- The precondition checks of `GaussianCDT::new` (`src/probability/gaussian.rs`
lines 57-70), with `theta` as an exact rational (the claims concern which
parameter ranges abort, not float rounding):
assert `theta_key - theta_key.floor() < 1.0` for `theta_key = theta * 10^5`
("theta is too precise"), assert `theta_key <= u32::MAX` ("theta is too
large"), compute `dist = ceil(13 * theta)` and assert `dist >= 1` ("theta
is too small").  A failed assert is the fatal `none`; otherwise the tail
bound `dist` is returned and table construction proceeds. -/
def cdtNewChecks (theta : ℚ) : Option ℤ :=
  if ¬(theta * 10 ^ 5 - (⌊theta * 10 ^ 5⌋ : ℚ) < 1) then none
  else if ¬(theta * 10 ^ 5 ≤ 4294967295) then none
  else if ⌈13 * theta⌉ < 1 then none
  else some ⌈13 * theta⌉

/-- C9: construction does NOT fail for every theta needing more than 5
decimal digits: the precision assert compares the fractional part of
`theta * 10^5` against `1`, which always holds, so it can never fire.
`theta = 10^-6` needs 6 digits (`theta * 10^5 = 1/10` is not an integer)
yet passes all checks and builds a table with tail bound `1`.  The other
two fatal conditions do fire: an overflowing `theta = 10^30` and a
degenerate `theta = 0` both abort. -/
theorem c9_precision_check_never_fires :
    (∀ theta : ℚ, theta * 10 ^ 5 - (⌊theta * 10 ^ 5⌋ : ℚ) < 1) ∧
    cdtNewChecks (1 / 1000000) = some 1 ∧
    ((1 / 1000000 : ℚ) * 10 ^ 5).den ≠ 1 ∧
    cdtNewChecks (10 ^ 30) = none ∧
    cdtNewChecks 0 = none := by
  have hvac : ∀ theta : ℚ, theta * 10 ^ 5 - (⌊theta * 10 ^ 5⌋ : ℚ) < 1 := by
    intro theta
    have h := Int.fract_lt_one (theta * 10 ^ 5)
    rwa [Int.fract] at h
  refine ⟨hvac, ?_, by norm_num, ?_, ?_⟩
  · have hceil : (⌈(13 : ℚ) * (1 / 1000000)⌉ : ℤ) = 1 := by
      rw [Int.ceil_eq_iff]
      norm_num
    unfold cdtNewChecks
    rw [if_neg (not_not_intro (hvac _)), if_neg (not_not_intro (by norm_num)),
      if_neg (by rw [hceil]; norm_num), hceil]
  · unfold cdtNewChecks
    rw [if_neg (not_not_intro (hvac _)), if_pos]
    rw [not_le]
    norm_num
  · have hceil0 : (⌈(13 : ℚ) * 0⌉ : ℤ) = 0 := by norm_num
    unfold cdtNewChecks
    rw [if_neg (not_not_intro (hvac _)), if_neg (not_not_intro (by norm_num)),
      if_pos (by rw [hceil0]; norm_num)]

end HiddenR1CS
